import Mathlib

/-! Shallow embedding of the leptos-tutorial demo (src/main.rs): the counter
widget `AppOne`, the fixed list of counters `StaticList`, the growable list of
counters `DynamicList`, the form widget `App` with its controlled and
uncontrolled inputs, and the entry point `main` that mounts a single widget.
Signals are modelled as explicit state: a counter signal is a `Nat` or `Int`
cell, and the signals allocated by `DynamicList` live in an explicit heap
indexed by allocation order. -/

namespace LeptosTutorial

/-! ### Counter widget (AppOne)

`let (count, set_count) = create_signal(cx, 0)`; the button click handler runs
`set_count.update(|n| *n += 1)`; `double_count = move || count.get() * 2`; the
`class:red` flag is `move || count.get() % 2 == 1`. -/

/-- Initial value of the `count` signal in `AppOne`. -/
def appOneInit : Int := 0

/-- Effect of one click of the `AppOne` button: `set_count.update(|n| *n += 1)`. -/
def appOneClick (n : Int) : Int := n + 1

/-- The derived closure `double_count = move || count.get() * 2`. -/
def doubleCount (n : Int) : Int := n * 2

/-- The `class:red = move || count.get() % 2 == 1` style flag. -/
def redFlag (n : Int) : Bool := n % 2 == 1

/-- Value of the `count` signal after `k` click activations. -/
def countAfter : Nat → Int
  | 0 => appOneInit
  | k + 1 => appOneClick (countAfter k)

/-! ### StaticList

`let counters = (1..=length).map(|idx| create_signal(cx, idx))`: cell number
`idx` (1-based) starts at `idx`; each button increments only its own cell. We
model the row of cells as a list of values, 0-indexed by position. -/

/-- The initial cells of `StaticList(length)`: position `i` holds `i + 1`,
i.e. its 1-based index. -/
def staticInit (length : Nat) : List Nat :=
  (List.range length).map (fun idx => idx + 1)

/-- Clicking the button of row `i`: `set_count.update(|n| *n += 1)` on that
row's own signal, leaving every other cell untouched. -/
def incStatic (i : Nat) (s : List Nat) : List Nat :=
  s.set i (s.getD i 0 + 1)

/-! ### DynamicList

State of the widget: the `next_counter_id` counter, the heap of counter
signals created by `create_signal` (indexed by allocation order), and the
`counters` signal holding the ordered sequence of `(id, signal)` pairs.
A signal is represented by its heap index. -/

/-- The user-visible operations on a `DynamicList`: the Add Counter button,
the per-row Remove button, and the per-row increment button. -/
inductive DOp where
  | add : DOp
  | remove : Nat → DOp
  | increment : Nat → DOp
deriving Repr, DecidableEq

/-- State of a `DynamicList` instance: `nextId` is `next_counter_id`, `heap`
holds the value of every signal ever created (indexed by creation order), and
`entries` is the `counters` vector of `(id, signal index)` pairs. -/
structure DState where
  nextId : Nat
  heap : List Nat
  entries : List (Nat × Nat)
deriving Repr, DecidableEq

/-- Initial state of `DynamicList(initial_length)`:
`next_counter_id = initial_length` and
`initial_counters = (0..initial_length).map(|id| (id, create_signal(cx, id + 1)))`,
so signal number `id` is created holding `id + 1`. -/
def initD (initial_length : Nat) : DState :=
  { nextId := initial_length,
    heap := (List.range initial_length).map (fun id => id + 1),
    entries := (List.range initial_length).map (fun id => (id, id)) }

/-- One operation on the widget state.
Add: `create_signal(cx, next_counter_id + 1)`, push `(next_counter_id, sig)`,
then `next_counter_id += 1`.
Remove id: `counters.retain(|(counter_id, _)| counter_id != &id)`.
Increment id: `set_count.update(|n| *n += 1)` on the signal of the row whose
key is `id`; the `counters` vector itself is untouched. -/
def step : DOp → DState → DState
  | DOp.add, s =>
      { nextId := s.nextId + 1,
        heap := s.heap ++ [s.nextId + 1],
        entries := s.entries ++ [(s.nextId, s.heap.length)] }
  | DOp.remove id, s =>
      { s with entries := s.entries.filter (fun e => e.1 != id) }
  | DOp.increment id, s =>
      match s.entries.find? (fun e => e.1 == id) with
      | some e => { s with heap := s.heap.set e.2 (s.heap.getD e.2 0 + 1) }
      | none => s

/-- Run a sequence of operations left to right. -/
def run : List DOp → DState → DState
  | [], s => s
  | op :: ops, s => run ops (step op s)

/-- Every state reached while running a sequence of operations, the initial
state included. -/
def runStates : List DOp → DState → List DState
  | [], s => [s]
  | op :: ops, s => s :: runStates ops (step op s)

/-- Number of Add operations in a sequence. -/
def countAdds : List DOp → Nat
  | [] => 0
  | DOp.add :: ops => countAdds ops + 1
  | DOp.remove _ :: ops => countAdds ops
  | DOp.increment _ :: ops => countAdds ops

/-- The ids of the entries currently in the list, in order. -/
def entryIds (s : DState) : List Nat := s.entries.map Prod.fst

/-- The displayed counter values of the entries, in order. -/
def entryValues (s : DState) : List Nat :=
  s.entries.map (fun e => s.heap.getD e.2 0)

/-- The counter value of the entry with the given id, if present. -/
def valueOf (id : Nat) (s : DState) : Option Nat :=
  (s.entries.find? (fun e => e.1 == id)).map (fun e => s.heap.getD e.2 0)

/-- Every id currently in the list is below the next-id counter. -/
def Inv (s : DState) : Prop := ∀ id ∈ entryIds s, id < s.nextId

/-- The entries reference pairwise distinct signals, all within the heap. -/
def SigInv (s : DState) : Prop :=
  (s.entries.map Prod.snd).Nodup ∧ ∀ e ∈ s.entries, e.2 < s.heap.length

/-! ### Form widget (App): uncontrolled input and submit handler

`on_submit` runs `ev.prevent_default()`, then
`input_element.get().expect("<input> to exist").value()`, then
`set_name_two.set(value)`. We model the handler as the trace of its side
effects plus a completion flag: `input_element` resolves to the element's
live value or to `none` when unmounted, in which case `expect` panics and the
handler aborts after the reference read. -/

/-- One observable side effect of the submit handler. -/
inductive SubmitAction where
  | preventDefault : SubmitAction
  | readRef : SubmitAction
  | setNameTwo : String → SubmitAction
deriving Repr, DecidableEq

/-- Recognizer for the `preventDefault` action. -/
def isPreventDefault : SubmitAction → Bool
  | SubmitAction.preventDefault => true
  | _ => false

/-- The `name_two` cell holding the last submitted value. -/
structure FormState where
  name_two : String
deriving Repr, DecidableEq

/-- The trace of the `on_submit` handler and whether it ran to completion:
`ev.prevent_default()` first, then the `input_element.get()` reference read;
on `none` the `expect` panics and the handler aborts, otherwise the read
value is written to `name_two`. -/
def on_submit (input_element : Option String) : List SubmitAction × Bool :=
  match input_element with
  | none => ([SubmitAction.preventDefault, SubmitAction.readRef], false)
  | some value =>
      ([SubmitAction.preventDefault, SubmitAction.readRef,
        SubmitAction.setNameTwo value], true)

/-- Effect of one submit-handler action on the `name_two` cell. -/
def applySubmitAction (st : FormState) : SubmitAction → FormState
  | SubmitAction.setNameTwo v => { name_two := v }
  | _ => st

/-- The `name_two` cell after one submit attempt: the writes of the handler
trace applied in order. -/
def runSubmit (input_element : Option String) (st : FormState) : FormState :=
  ((on_submit input_element).1).foldl applySubmitAction st

/-! ### Form widget (App): controlled input

`create_signal(cx, "Controlled".to_string())`; the `on:input` handler runs
`set_name.set(event_target_value(&ev))`, where the event target value is the
text the input element now displays after the keystroke; `prop:value` seeds
the displayed value from the cell at mount. -/

/-- The `name` cell and the value displayed by the input element. -/
structure ControlledState where
  name : String
  displayed : String
deriving Repr, DecidableEq

/-- Mount-time state: `name` starts as `"Controlled"` and the displayed
value is seeded from `name.get()`. -/
def controlledInit : ControlledState :=
  { name := "Controlled", displayed := "Controlled" }

/-- A keystroke event producing text `t`: the element now displays `t`, and
the `on:input` handler writes `event_target_value`, which is `t`, into the
`name` cell. -/
def keystroke (_st : ControlledState) (t : String) : ControlledState :=
  { name := t, displayed := t }

/-- Run a sequence of keystroke events. -/
def runKeystrokes (ts : List String) (st : ControlledState) : ControlledState :=
  ts.foldl keystroke st

/-! ### Widgets and mounting

`main` runs `leptos::mount_to_body(|cx| view! { cx, <App/> })` once. `AppOne`
composes three `ProgressBar` instances, `AppTwo` composes `StaticList` and
`DynamicList`, and `App` composes no other component. -/

/-- The components defined in the file. -/
inductive Widget where
  | progressBar : Widget
  | appOne : Widget
  | staticList : Widget
  | dynamicList : Widget
  | appTwo : Widget
  | app : Widget
deriving Repr, DecidableEq

/-- The components each component instantiates in its view. -/
def children : Widget → List Widget
  | Widget.appOne => [Widget.progressBar, Widget.progressBar, Widget.progressBar]
  | Widget.appTwo => [Widget.staticList, Widget.dynamicList]
  | _ => []

/-- The widgets mounted by `main`: exactly one call to `mount_to_body`,
mounting `App`. -/
def mountedWidgets : List Widget := [Widget.app]

/-- All widgets reachable from a widget in at most `n` instantiation steps. -/
def reachList : Nat → Widget → List Widget
  | 0, w => [w]
  | n + 1, w => w :: ((children w).map (reachList n)).flatten

/-! ## Theorems -/

/-! ### Helper lemmas on DynamicList steps -/

/-- Add bumps the next-id counter by exactly one. -/
theorem nextId_step_add (s : DState) : (step DOp.add s).nextId = s.nextId + 1 := rfl

/-- Remove leaves the next-id counter untouched. -/
theorem nextId_step_remove (id : Nat) (s : DState) :
    (step (DOp.remove id) s).nextId = s.nextId := rfl

/-- Increment leaves the next-id counter untouched. -/
theorem nextId_step_increment (id : Nat) (s : DState) :
    (step (DOp.increment id) s).nextId = s.nextId := by
  simp only [step]
  split <;> rfl

/-- Increment leaves the entry sequence untouched. -/
theorem entries_step_increment (id : Nat) (s : DState) :
    (step (DOp.increment id) s).entries = s.entries := by
  simp only [step]
  split <;> rfl

/-- No operation ever decreases the next-id counter. -/
theorem nextId_step_le (op : DOp) (s : DState) : s.nextId ≤ (step op s).nextId := by
  cases op with
  | add => rw [nextId_step_add]; exact Nat.le_succ _
  | remove id => rw [nextId_step_remove]
  | increment id => rw [nextId_step_increment]

/-- The next-id counter never decreases across a run. -/
theorem nextId_le_run (ops : List DOp) (s : DState) : s.nextId ≤ (run ops s).nextId := by
  induction ops generalizing s with
  | nil => exact Nat.le_refl _
  | cons op ops ih => exact Nat.le_trans (nextId_step_le op s) (ih (step op s))

/-- The next-id counter grows by exactly the number of Adds in the run. -/
theorem run_nextId (ops : List DOp) (s : DState) :
    (run ops s).nextId = s.nextId + countAdds ops := by
  induction ops generalizing s with
  | nil => rfl
  | cons op ops ih =>
    have hrun : run (op :: ops) s = run ops (step op s) := rfl
    rw [hrun, ih]
    cases op with
    | add => rw [nextId_step_add]; simp only [countAdds]; omega
    | remove id => rw [nextId_step_remove]; simp only [countAdds]
    | increment id => rw [nextId_step_increment]; simp only [countAdds]

/-- The initial state satisfies the id invariant: ids 0..N-1 are below N. -/
theorem inv_initD (N : Nat) : Inv (initD N) := by
  intro id hid
  simp only [entryIds, initD, List.map_map, List.mem_map, Function.comp,
    List.mem_range] at hid
  obtain ⟨a, ha, rfl⟩ := hid
  exact ha

/-- Every operation preserves the id invariant. -/
theorem inv_step (op : DOp) (s : DState) (h : Inv s) : Inv (step op s) := by
  cases op with
  | add =>
    intro id hid
    rw [nextId_step_add]
    simp only [step, entryIds, List.map_append, List.mem_append, List.map_cons,
      List.map_nil, List.mem_singleton] at hid
    rcases hid with hid | rfl
    · exact Nat.lt_succ_of_lt (h id hid)
    · exact Nat.lt_succ_self _
  | remove rid =>
    intro id hid
    simp only [step, entryIds, List.mem_map] at hid
    obtain ⟨e, he, rfl⟩ := hid
    exact h e.1 (List.mem_map_of_mem _ (List.mem_of_mem_filter he))
  | increment iid =>
    intro id hid
    rw [nextId_step_increment]
    simp only [entryIds, entries_step_increment] at hid
    exact h id hid

/-- Every state visited during a run satisfies the id invariant. -/
theorem inv_runStates (ops : List DOp) (s t : DState) (hs : Inv s)
    (ht : t ∈ runStates ops s) : Inv t := by
  induction ops generalizing s with
  | nil =>
    simp only [runStates, List.mem_singleton] at ht
    exact ht ▸ hs
  | cons op ops ih =>
    simp only [runStates, List.mem_cons] at ht
    rcases ht with rfl | ht
    · exact hs
    · exact ih (step op s) (inv_step op s hs) ht

/-- The next-id counter of every visited state is at most the final one. -/
theorem runStates_nextId_le (ops : List DOp) (s t : DState)
    (ht : t ∈ runStates ops s) : t.nextId ≤ (run ops s).nextId := by
  induction ops generalizing s with
  | nil =>
    simp only [runStates, List.mem_singleton] at ht
    exact ht ▸ Nat.le_refl _
  | cons op ops ih =>
    simp only [runStates, List.mem_cons] at ht
    have hrun : run (op :: ops) s = run ops (step op s) := rfl
    rw [hrun]
    rcases ht with rfl | ht
    · exact Nat.le_trans (nextId_step_le op t) (nextId_le_run ops (step op t))
    · exact ih (step op s) ht

/-- Claim C1: the next-id counter starts at N, grows by exactly one per Add
and never decreases, so the id the next Add would assign is strictly larger
than, and in particular different from, every id present in any state the
list ever went through, removed ids included. -/
theorem dynamicList_ids_never_reused (N : Nat) (ops : List DOp) :
    (run ops (initD N)).nextId = N + countAdds ops ∧
    ∀ t ∈ runStates ops (initD N), ∀ id ∈ entryIds t,
      id < (run ops (initD N)).nextId ∧ id ≠ (run ops (initD N)).nextId := by
  constructor
  · exact run_nextId ops (initD N)
  · intro t ht id hid
    have h1 : id < t.nextId := inv_runStates ops (initD N) t (inv_initD N) ht id hid
    have h2 : t.nextId ≤ (run ops (initD N)).nextId := runStates_nextId_le ops (initD N) t ht
    have h3 : id < (run ops (initD N)).nextId := Nat.lt_of_lt_of_le h1 h2
    exact ⟨h3, Nat.ne_of_lt h3⟩

/-- Witness for C1 at N = 1 with ops Add then Remove 0: id 0 was present in
the initial state, and the id the next Add would assign (2) is above it and
different from it. -/
theorem dynamicList_ids_never_reused_witness :
    (run [DOp.add, DOp.remove 0] (initD 1)).nextId = 1 + countAdds [DOp.add, DOp.remove 0] ∧
    (0 < (run [DOp.add, DOp.remove 0] (initD 1)).nextId ∧
      0 ≠ (run [DOp.add, DOp.remove 0] (initD 1)).nextId) :=
  ⟨(dynamicList_ids_never_reused 1 [DOp.add, DOp.remove 0]).1,
   (dynamicList_ids_never_reused 1 [DOp.add, DOp.remove 0]).2 (initD 1) (by decide) 0
     (by decide)⟩

/-- Claim C2: starting from `DynamicList(initial_length = 5)` the entries have
ids 0..4 with values 1..5; after one Add there are six entries and the new one
has id 5 and value 6; after Remove(2) five entries with ids 0,1,3,4,5 remain;
after Increment(5) the entry with id 5 holds 7. -/
theorem dynamicList_scenario :
    entryIds (initD 5) = [0, 1, 2, 3, 4] ∧
    entryValues (initD 5) = [1, 2, 3, 4, 5] ∧
    (run [DOp.add] (initD 5)).entries.length = 6 ∧
    entryIds (run [DOp.add] (initD 5)) = [0, 1, 2, 3, 4, 5] ∧
    valueOf 5 (run [DOp.add] (initD 5)) = some 6 ∧
    (run [DOp.add, DOp.remove 2] (initD 5)).entries.length = 5 ∧
    entryIds (run [DOp.add, DOp.remove 2] (initD 5)) = [0, 1, 3, 4, 5] ∧
    valueOf 5 (run [DOp.add, DOp.remove 2, DOp.increment 5] (initD 5)) = some 7 := by
  decide

/-- Claim C4: the `AppOne` count starts at 0; after `k` clicks the count is
`k`, the derived doubled value reads `2 * k`, and the `class:red` flag is set
exactly when `k` is odd. -/
theorem appOne_counter (k : Nat) :
    countAfter k = (k : Int) ∧
    doubleCount (countAfter k) = 2 * (k : Int) ∧
    (redFlag (countAfter k) = true ↔ k % 2 = 1) := by
  have h : countAfter k = (k : Int) := by
    induction k with
    | zero => rfl
    | succ n ih =>
      show appOneClick (countAfter n) = ((n + 1 : Nat) : Int)
      rw [ih]
      simp [appOneClick]
  refine ⟨h, ?_, ?_⟩
  · rw [h, doubleCount]
    ring
  · rw [h, redFlag, beq_iff_eq]
    omega

/-- Claim C9: `main` mounts exactly one widget, the form widget `App`;
`AppOne`, `AppTwo`, `StaticList` and `DynamicList` are never instantiated
from the mounted root. -/
theorem main_mounts_only_app :
    mountedWidgets = [Widget.app] ∧
    reachList 6 Widget.app = [Widget.app] ∧
    (reachList 6 Widget.app).contains Widget.appOne = false ∧
    (reachList 6 Widget.app).contains Widget.appTwo = false ∧
    (reachList 6 Widget.app).contains Widget.staticList = false ∧
    (reachList 6 Widget.app).contains Widget.dynamicList = false ∧
    (reachList 6 Widget.appTwo).contains Widget.staticList = true ∧
    (reachList 6 Widget.appTwo).contains Widget.dynamicList = true := by
  decide

/-- Claim C3: removing an id that no entry carries leaves the state exactly
unchanged, and removing the same id twice is the same as removing it once. -/
theorem remove_noop_and_idempotent (s : DState) (X : Nat) :
    ((∀ e ∈ s.entries, e.1 ≠ X) → step (DOp.remove X) s = s) ∧
    step (DOp.remove X) (step (DOp.remove X) s) = step (DOp.remove X) s := by
  constructor
  · intro h
    have hf : s.entries.filter (fun e => e.1 != X) = s.entries := by
      apply List.filter_eq_self.mpr
      intro e he
      simpa using h e he
    show { s with entries := s.entries.filter (fun e => e.1 != X) } = s
    rw [hf]
  · have hf : (s.entries.filter (fun e => e.1 != X)).filter (fun e => e.1 != X)
        = s.entries.filter (fun e => e.1 != X) := by
      apply List.filter_eq_self.mpr
      intro e he
      exact (List.mem_filter.mp he).2
    show { s with entries :=
        (s.entries.filter (fun e => e.1 != X)).filter (fun e => e.1 != X) }
      = { s with entries := s.entries.filter (fun e => e.1 != X) }
    rw [hf]

/-- Witness for C3: removing the absent id 7 from the initial one-entry list
is a no-op, and removing it twice equals removing it once. -/
theorem remove_noop_and_idempotent_witness :
    step (DOp.remove 7) (initD 1) = initD 1 ∧
    step (DOp.remove 7) (step (DOp.remove 7) (initD 1)) = step (DOp.remove 7) (initD 1) :=
  ⟨(remove_noop_and_idempotent (initD 1) 7).1 (by decide),
   (remove_noop_and_idempotent (initD 1) 7).2⟩

/-- Claim C5: `StaticList(N)` creates exactly N cells, cell `i` (0-based
position) starting at its 1-based index `i + 1`; incrementing cell `i` adds
one to it and leaves every other cell and the number of cells unchanged. -/
theorem staticList_independent_counters (N : Nat) (s : List Nat) (i j : Nat) :
    (staticInit N).length = N ∧
    (∀ k, k < N → (staticInit N).getD k 0 = k + 1) ∧
    (i < s.length → (incStatic i s).getD i 0 = s.getD i 0 + 1) ∧
    (j ≠ i → (incStatic i s).getD j 0 = s.getD j 0) ∧
    (incStatic i s).length = s.length := by
  refine ⟨?_, ?_, ?_, ?_, ?_⟩
  · simp [staticInit]
  · intro k hk
    simp [staticInit, List.getD, List.getElem?_map, List.getElem?_range hk]
  · intro hi
    simp [incStatic, List.getD, List.getElem?_set, hi]
  · intro hj
    simp [incStatic, List.getD, List.getElem?_set, Ne.symm hj]
  · simp [incStatic]

/-- Witness for C5 at N = 2 and the cell row [5, 6]: cell 1 of the fresh list
holds 2, incrementing cell 0 turns its value into its old value plus one and
leaves cell 1 as it was. -/
theorem staticList_independent_counters_witness :
    (staticInit 2).getD 1 0 = 1 + 1 ∧
    (incStatic 0 [5, 6]).getD 0 0 = [5, 6].getD 0 0 + 1 ∧
    (incStatic 0 [5, 6]).getD 1 0 = [5, 6].getD 1 0 :=
  ⟨(staticList_independent_counters 2 [5, 6] 0 1).2.1 1 (by decide),
   (staticList_independent_counters 2 [5, 6] 0 1).2.2.1 (by decide),
   (staticList_independent_counters 2 [5, 6] 0 1).2.2.2.1 (by decide)⟩

/-- Claim C6: the submit handler runs to completion exactly when the element
reference resolves; when it does not resolve the `name_two` cell is left
unchanged, and when it resolves to live value `v` the handler writes `v`
into `name_two`. -/
theorem submit_fails_iff_unresolved (input_element : Option String) (st : FormState) :
    ((on_submit input_element).2 = true ↔ input_element.isSome = true) ∧
    (input_element = none → runSubmit input_element st = st) ∧
    (∀ v, input_element = some v → (runSubmit input_element st).name_two = v) := by
  cases input_element with
  | none =>
    refine ⟨?_, ?_, ?_⟩
    · simp [on_submit]
    · intro _
      rfl
    · intro v hv
      exact nomatch hv
  | some value =>
    refine ⟨?_, ?_, ?_⟩
    · simp [on_submit]
    · intro h
      exact nomatch h
    · intro v hv
      cases hv
      rfl

/-- Witness for C6: with the reference resolving to "typed" the handler
completes and stores "typed"; with an unresolved reference the cell keeps
its old value. -/
theorem submit_fails_iff_unresolved_witness :
    (on_submit (some "typed")).2 = true ∧
    runSubmit none { name_two := "Uncontrolled" } = { name_two := "Uncontrolled" } ∧
    (runSubmit (some "typed") { name_two := "Uncontrolled" }).name_two = "typed" :=
  ⟨((submit_fails_iff_unresolved (some "typed") { name_two := "Uncontrolled" }).1).mpr rfl,
   (submit_fails_iff_unresolved none { name_two := "Uncontrolled" }).2.1 rfl,
   (submit_fails_iff_unresolved (some "typed") { name_two := "Uncontrolled" }).2.2 "typed" rfl⟩

/-- Claim C7: on every submit invocation the default action is suppressed
exactly once, and the trace starts with the suppression immediately followed
by the reference read, on failing invocations as well. -/
theorem submit_prevents_default_once_first (input_element : Option String) :
    (on_submit input_element).1.countP isPreventDefault = 1 ∧
    ∃ rest, (on_submit input_element).1 =
      SubmitAction.preventDefault :: SubmitAction.readRef :: rest := by
  cases input_element with
  | none => exact ⟨rfl, [], rfl⟩
  | some value => exact ⟨rfl, [SubmitAction.setNameTwo value], rfl⟩

/-- Claim C8: the `name` cell and the displayed input value agree after every
sequence of keystroke events, and once the sequence ends in final text `T`
both equal `T` exactly. -/
theorem controlled_input_synced (ts ts0 : List String) (T : String) :
    ((runKeystrokes ts controlledInit).name
      = (runKeystrokes ts controlledInit).displayed) ∧
    (ts = ts0 ++ [T] →
      (runKeystrokes ts controlledInit).name = T ∧
      (runKeystrokes ts controlledInit).displayed = T) := by
  constructor
  · have key : ∀ (l : List String) (st : ControlledState), st.name = st.displayed →
        (runKeystrokes l st).name = (runKeystrokes l st).displayed := by
      intro l
      induction l with
      | nil => intro st h; exact h
      | cons t l ih => intro st _; exact ih (keystroke st t) rfl
    exact key ts controlledInit rfl
  · rintro rfl
    constructor
    · show ((ts0 ++ [T]).foldl keystroke controlledInit).name = T
      rw [List.foldl_append]
      rfl
    · show ((ts0 ++ [T]).foldl keystroke controlledInit).displayed = T
      rw [List.foldl_append]
      rfl

/-- Witness for C8: after the keystrokes "a" then "ab" the cell and display
agree and both read "ab". -/
theorem controlled_input_synced_witness :
    ((runKeystrokes ["a", "ab"] controlledInit).name
      = (runKeystrokes ["a", "ab"] controlledInit).displayed) ∧
    ((runKeystrokes ["a", "ab"] controlledInit).name = "ab" ∧
      (runKeystrokes ["a", "ab"] controlledInit).displayed = "ab") :=
  ⟨(controlled_input_synced ["a", "ab"] ["a"] "ab").1,
   (controlled_input_synced ["a", "ab"] ["a"] "ab").2 rfl⟩

/-- The initial state references pairwise distinct signals inside the heap. -/
theorem sigInv_initD (N : Nat) : SigInv (initD N) := by
  constructor
  · simp only [initD, List.map_map]
    have h : (Prod.snd ∘ fun id : Nat => (id, id)) = fun id : Nat => id := rfl
    rw [h]
    simpa using List.nodup_range N
  · intro e he
    simp only [initD, List.mem_map, List.mem_range] at he
    obtain ⟨a, ha, rfl⟩ := he
    simp only [initD, List.length_map, List.length_range]
    exact ha

/-- Every operation keeps the signal references distinct and in the heap. -/
theorem sigInv_step (op : DOp) (s : DState) (h : SigInv s) : SigInv (step op s) := by
  obtain ⟨hnd, hlt⟩ := h
  cases op with
  | add =>
    constructor
    · simp only [step, List.map_append, List.map_cons, List.map_nil]
      rw [List.nodup_append]
      refine ⟨hnd, List.nodup_singleton _, ?_⟩
      intro a ha hb
      simp only [List.mem_singleton] at hb
      subst hb
      simp only [List.mem_map] at ha
      obtain ⟨e, he, hae⟩ := ha
      have := hlt e he
      omega
    · intro e he
      simp only [step, List.mem_append, List.mem_singleton] at he
      simp only [step, List.length_append, List.length_cons, List.length_nil]
      rcases he with he | rfl
      · have := hlt e he
        omega
      · omega
  | remove rid =>
    constructor
    · simp only [step]
      exact hnd.sublist (List.Sublist.map Prod.snd (List.filter_sublist _))
    · intro e he
      simp only [step] at he ⊢
      exact hlt e (List.mem_of_mem_filter he)
  | increment iid =>
    constructor
    · rw [entries_step_increment]
      exact hnd
    · intro e he
      rw [entries_step_increment] at he
      have hlen : (step (DOp.increment iid) s).heap.length = s.heap.length := by
        simp only [step]
        split
        · simp
        · rfl
      rw [hlen]
      exact hlt e he

/-- The signal invariant holds in every state a run reaches. -/
theorem sigInv_run (ops : List DOp) (s : DState) (h : SigInv s) : SigInv (run ops s) := by
  induction ops generalizing s with
  | nil => exact h
  | cons op ops ih => exact ih (step op s) (sigInv_step op s h)

/-- Writing a heap slot that the entry with id Y does not reference leaves
the value of id Y unchanged. -/
theorem valueOf_heap_set (s : DState) (Y k v : Nat)
    (hk : ∀ e ∈ s.entries, (e.1 == Y) = true → e.2 ≠ k) :
    valueOf Y { s with heap := s.heap.set k v } = valueOf Y s := by
  unfold valueOf
  cases hfY : s.entries.find? (fun e => e.1 == Y) with
  | none => simp [hfY]
  | some eY =>
    have heYmem := List.mem_of_find?_eq_some hfY
    have hpred := List.find?_some hfY
    have hne : eY.2 ≠ k := hk eY heYmem hpred
    simp [hfY, List.getD, List.getElem?_set, Ne.symm hne]

/-- Claim C10: Remove(X) drops exactly the entries with id X, keeping the
remaining entries, their relative order and their pairs intact; Increment(X)
leaves the entry sequence and the next-id counter untouched and changes no
other id's counter value. -/
theorem dynamic_remove_increment_frame (N : Nat) (ops : List DOp) (X Y : Nat) :
    (∀ e ∈ (step (DOp.remove X) (run ops (initD N))).entries, e.1 ≠ X) ∧
    List.Sublist (step (DOp.remove X) (run ops (initD N))).entries
      (run ops (initD N)).entries ∧
    (∀ e ∈ (run ops (initD N)).entries, e.1 ≠ X →
      e ∈ (step (DOp.remove X) (run ops (initD N))).entries) ∧
    (step (DOp.increment X) (run ops (initD N))).entries
      = (run ops (initD N)).entries ∧
    (step (DOp.increment X) (run ops (initD N))).nextId
      = (run ops (initD N)).nextId ∧
    (Y ≠ X → valueOf Y (step (DOp.increment X) (run ops (initD N)))
      = valueOf Y (run ops (initD N))) := by
  refine ⟨?_, ?_, ?_, entries_step_increment X _, nextId_step_increment X _, ?_⟩
  · intro e he
    simp only [step, List.mem_filter] at he
    simpa using he.2
  · simp only [step]
    exact List.filter_sublist _
  · intro e he hne
    simp only [step, List.mem_filter]
    exact ⟨he, by simpa using hne⟩
  · intro hYX
    have hsig : SigInv (run ops (initD N)) := sigInv_run ops (initD N) (sigInv_initD N)
    obtain ⟨hnd, _⟩ := hsig
    cases hfX : (run ops (initD N)).entries.find? (fun e => e.1 == X) with
    | none =>
      have hstep : step (DOp.increment X) (run ops (initD N)) = run ops (initD N) := by
        simp only [step, hfX]
      rw [hstep]
    | some eX =>
      have hstep : step (DOp.increment X) (run ops (initD N))
          = { run ops (initD N) with
              heap := (run ops (initD N)).heap.set eX.2
                ((run ops (initD N)).heap.getD eX.2 0 + 1) } := by
        simp only [step, hfX]
      have heXmem : eX ∈ (run ops (initD N)).entries := List.mem_of_find?_eq_some hfX
      have heX1 : eX.1 = X := by
        have := List.find?_some hfX
        simpa using this
      rw [hstep]
      apply valueOf_heap_set
      intro e he hpred he2
      have heq : e = eX := List.inj_on_of_nodup_map hnd he heXmem he2
      apply hYX
      rw [← heX1, ← heq]
      exact (by simpa using hpred : e.1 = Y).symm

/-- Witness for C10 at N = 2 with no prior operations, removing id 0 and
incrementing id 0: the surviving entry (1, 1) carries an id other than 0 and
stays in the list, and the counter value of id 1 is untouched by the
increment of id 0. -/
theorem dynamic_remove_increment_frame_witness :
    (1, 1).1 ≠ 0 ∧
    (1, 1) ∈ (step (DOp.remove 0) (run [] (initD 2))).entries ∧
    valueOf 1 (step (DOp.increment 0) (run [] (initD 2))) = valueOf 1 (run [] (initD 2)) :=
  ⟨(dynamic_remove_increment_frame 2 [] 0 1).1 (1, 1) (by decide),
   (dynamic_remove_increment_frame 2 [] 0 1).2.2.1 (1, 1) (by decide) (by decide),
   (dynamic_remove_increment_frame 2 [] 0 1).2.2.2.2.2 (by decide)⟩

end LeptosTutorial
